import Mathlib

/-!
Verification of the vibemerge repository (src/vmrg.py, src/vibemerge.py).

Shallow embedding conventions:
* file contents are byte sequences, modelled as `List Nat` (each element a
  byte value 0-255 as produced by Python's `bytes` indexing);
* the per-language delimiter tables of `LANGUAGE_CONFIGS` are copied
  byte-for-byte from src/vmrg.py lines 26-67;
* `compress_code` (src/vmrg.py lines 212-271) is a single left-to-right
  scan; its `while` loop is embedded with explicit fuel (one unit per
  outer-loop iteration), and the inner string-scanning `while` loops are
  embedded as the structurally recursive functions `lineLoop` and
  `stringLoop`;
* an instrumented variant tags every emitted byte with its provenance
  (detected string-literal region, backslash escape pair, or plain copy)
  so that properties about "whitespace outside literal regions" can be
  stated; erasing the tags recovers the plain function.
-/

namespace Vibemerge

/-- Provenance tag for an emitted byte of the compression output:
`lit` = emitted while copying a detected string-literal region (including
its delimiters), `esc` = one of the two bytes of a backslash escape pair
copied in normal state, `plain` = an ordinary byte copied in normal state. -/
inductive Tag where
  | lit : Tag
  | esc : Tag
  | plain : Tag
deriving DecidableEq, Repr

/-- A language profile: ordered string-delimiter pairs and ordered
comment-delimiter pairs, as in the Python dicts of `LANGUAGE_CONFIGS`. -/
structure LangConfig where
  strings : List (List Nat × List Nat)
  comments : List (List Nat × List Nat)
deriving DecidableEq, Repr

/-- `LANGUAGE_CONFIGS` from src/vmrg.py lines 26-67, with every delimiter
written as its byte values. -/
def LANGUAGE_CONFIGS : List (String × LangConfig) := [
  (".py", ⟨[([34,34,34],[34,34,34]), ([39,39,39],[39,39,39]), ([34],[34]), ([39],[39])], [([35],[10])]⟩),
  (".js", ⟨[([96],[96]), ([34],[34]), ([39],[39])], [([47,47],[10]), ([47,42],[42,47])]⟩),
  (".ts", ⟨[([96],[96]), ([34],[34]), ([39],[39])], [([47,47],[10]), ([47,42],[42,47])]⟩),
  (".jsx", ⟨[([96],[96]), ([34],[34]), ([39],[39])], [([47,47],[10]), ([47,42],[42,47])]⟩),
  (".tsx", ⟨[([96],[96]), ([34],[34]), ([39],[39])], [([47,47],[10]), ([47,42],[42,47])]⟩),
  (".java", ⟨[([34],[34]), ([39],[39])], [([47,47],[10]), ([47,42],[42,47])]⟩),
  (".c", ⟨[([34],[34]), ([39],[39])], [([47,47],[10]), ([47,42],[42,47])]⟩),
  (".cpp", ⟨[([34],[34]), ([39],[39]), ([82,34,40],[41,34])], [([47,47],[10]), ([47,42],[42,47])]⟩),
  (".cc", ⟨[([34],[34]), ([39],[39]), ([82,34,40],[41,34])], [([47,47],[10]), ([47,42],[42,47])]⟩),
  (".h", ⟨[([34],[34]), ([39],[39])], [([47,47],[10]), ([47,42],[42,47])]⟩),
  (".hpp", ⟨[([34],[34]), ([39],[39])], [([47,47],[10]), ([47,42],[42,47])]⟩),
  (".cs", ⟨[([64,34],[34]), ([34],[34]), ([39],[39])], [([47,47],[10]), ([47,42],[42,47])]⟩),
  (".go", ⟨[([96],[96]), ([34],[34]), ([39],[39])], [([47,47],[10]), ([47,42],[42,47])]⟩),
  (".rs", ⟨[([114,35,34],[34,35]), ([114,34],[34]), ([34],[34]), ([39],[39])], [([47,47],[10]), ([47,42],[42,47])]⟩),
  (".php", ⟨[([60,60,60],[]), ([34],[34]), ([39],[39])], [([47,47],[10]), ([47,42],[42,47]), ([35],[10])]⟩),
  (".rb", ⟨[([37,81,123],[125]), ([37,113,123],[125]), ([34],[34]), ([39],[39])], [([35],[10]), ([61,98,101,103,105,110],[61,101,110,100])]⟩),
  (".swift", ⟨[([34,34,34],[34,34,34]), ([34],[34])], [([47,47],[10]), ([47,42],[42,47])]⟩),
  (".kt", ⟨[([34,34,34],[34,34,34]), ([34],[34]), ([39],[39])], [([47,47],[10]), ([47,42],[42,47])]⟩),
  (".scala", ⟨[([34,34,34],[34,34,34]), ([34],[34]), ([39],[39])], [([47,47],[10]), ([47,42],[42,47])]⟩),
  (".lua", ⟨[([91,91],[93,93]), ([34],[34]), ([39],[39])], [([45,45],[10])]⟩),
  (".pl", ⟨[([113,123],[125]), ([113,113,123],[125]), ([34],[34]), ([39],[39])], [([35],[10])]⟩),
  (".r", ⟨[([34],[34]), ([39],[39])], [([35],[10])]⟩),
  (".m", ⟨[([64,34],[34]), ([34],[34]), ([39],[39])], [([47,47],[10]), ([47,42],[42,47])]⟩),
  (".sql", ⟨[([34],[34]), ([39],[39])], [([45,45],[10]), ([47,42],[42,47])]⟩),
  (".sh", ⟨[([34],[34]), ([39],[39])], [([35],[10])]⟩),
  (".bash", ⟨[([34],[34]), ([39],[39])], [([35],[10])]⟩),
  (".vim", ⟨[([34],[34]), ([39],[39])], [([34],[10])]⟩),
  (".dart", ⟨[([34,34,34],[34,34,34]), ([39,39,39],[39,39,39]), ([34],[34]), ([39],[39])], [([47,47],[10]), ([47,42],[42,47])]⟩),
  (".ex", ⟨[([34,34,34],[34,34,34]), ([34],[34]), ([39],[39])], [([35],[10])]⟩),
  (".exs", ⟨[([34,34,34],[34,34,34]), ([34],[34]), ([39],[39])], [([35],[10])]⟩),
  (".erl", ⟨[([34],[34])], [([37],[10])]⟩),
  (".clj", ⟨[([34],[34])], [([59],[10])]⟩),
  (".lisp", ⟨[([34],[34])], [([59],[10])]⟩),
  (".hs", ⟨[([34],[34])], [([45,45],[10]), ([123,45],[45,125])]⟩),
  (".ml", ⟨[([34],[34])], [([40,42],[42,41])]⟩),
  (".fs", ⟨[([34,34,34],[34,34,34]), ([34],[34])], [([47,47],[10]), ([40,42],[42,41])]⟩),
  (".nim", ⟨[([34,34,34],[34,34,34]), ([34],[34])], [([35],[10])]⟩),
  (".cr", ⟨[([34],[34]), ([39],[39])], [([35],[10])]⟩),
  (".v", ⟨[([34],[34]), ([39],[39])], [([47,47],[10]), ([47,42],[42,47])]⟩),
  (".zig", ⟨[([34],[34])], [([47,47],[10])]⟩)]

/-- The fallback profile used by `compress_code` for unknown extensions
(src/vmrg.py line 213): double- and single-quoted strings, no comments. -/
def defaultConfig : LangConfig := ⟨[([34],[34]), ([39],[39])], []⟩

/-- `LANGUAGE_CONFIGS.get(ext, default)` of src/vmrg.py line 213. -/
def getConfig (ext : String) : LangConfig :=
  ((LANGUAGE_CONFIGS.find? (fun p => p.1 == ext)).map Prod.snd).getD defaultConfig

/-- The insignificant-whitespace byte set `frozenset([32, 9, 10, 13])`
of src/vmrg.py line 218. -/
def isWs (x : Nat) : Bool := x == 32 || x == 9 || x == 10 || x == 13

/-- The inner loop of `compress_code` for a string delimiter whose end
delimiter is empty (src/vmrg.py lines 238-241): copy bytes verbatim up to
but not including the next line break.  Returns (emitted bytes, remaining
input after the loop). -/
def lineLoop : List Nat → List Nat × List Nat
  | [] => ([], [])
  | a :: rs =>
    if a = 10 ∨ a = 13 then ([], a :: rs)
    else
      let p := lineLoop rs
      (a :: p.1, p.2)

/-- The inner loop of `compress_code` for a string with end delimiter `e`
(src/vmrg.py lines 242-256): `while i + end_len <= n`, first testing the
end delimiter, then the backslash escape (needing one more byte), else
copying one byte.  Returns (emitted bytes, remaining input after the
loop).  The one-byte arm is the loop body specialized to a singleton tail:
there the escape test `i + 1 < n` always fails, the byte is copied, and
the loop condition then fails on the empty remainder. -/
def stringLoop (e : List Nat) : List Nat → List Nat × List Nat
  | [] => ([], [])
  | [a] =>
    if e.length ≤ 1 then
      if e.isPrefixOf [a] then (e, [a].drop e.length)
      else ([a], [])
    else ([], [a])
  | a :: b :: rs2 =>
    if e.length ≤ (a :: b :: rs2).length then
      if e.isPrefixOf (a :: b :: rs2) then (e, (a :: b :: rs2).drop e.length)
      else if a = 92 then
        let p := stringLoop e rs2
        (a :: b :: p.1, p.2)
      else
        let p := stringLoop e (b :: rs2)
        (a :: p.1, p.2)
    else ([], a :: b :: rs2)

/-- The dispatch `if not end_delim: ... else: ...` of src/vmrg.py lines
236-256: an empty end delimiter runs the copy-to-line-break loop, any
other end delimiter runs the string loop. -/
def loopRun (e rest1 : List Nat) : List Nat × List Nat :=
  if e = [] then lineLoop rest1 else stringLoop e rest1

/-- One normal-state step of `compress_code` other than the backslash
escape (src/vmrg.py lines 229-269): try each string start delimiter in
table order; on the first match copy it and run the string loop; else
drop an insignificant whitespace byte; else copy the byte.  Each emitted
byte carries its provenance tag; the plain engine erases the tags.
The profile's comment table is part of `cfg` but — exactly as in the
source — is never consulted. -/
def normStep (cfg : LangConfig) : List Nat → List (Nat × Tag) × List Nat
  | [] => ([], [])
  | a :: rest =>
    match cfg.strings.find? (fun sd => sd.1.isPrefixOf (a :: rest)) with
    | some (s, e) =>
      let p := loopRun e ((a :: rest).drop s.length)
      ((s ++ p.1).map (fun x => (x, Tag.lit)), p.2)
    | none =>
      if isWs a then ([], rest)
      else ([(a, Tag.plain)], rest)

/-- The outer `while i < n` scan of `compress_code` (src/vmrg.py lines
220-269), with one unit of fuel per outer-loop iteration; `none` means
the fuel ran out.  The backslash escape (lines 223-227) fires first and
only when a next byte exists. -/
def compressFuel (cfg : LangConfig) : Nat → List Nat → Option (List Nat)
  | 0, _ => none
  | _ + 1, [] => some []
  | fuel + 1, a :: b :: rest2 =>
    if a = 92 then (compressFuel cfg fuel rest2).map (fun t => a :: b :: t)
    else
      let p := normStep cfg (a :: b :: rest2)
      (compressFuel cfg fuel p.2).map (fun t => p.1.map Prod.fst ++ t)
  | fuel + 1, [a] =>
    let p := normStep cfg [a]
    (compressFuel cfg fuel p.2).map (fun t => p.1.map Prod.fst ++ t)

/-- Instrumented variant of `compressFuel` keeping the provenance tag of
every emitted byte; erasing tags recovers `compressFuel`. -/
def instrFuel (cfg : LangConfig) : Nat → List Nat → Option (List (Nat × Tag))
  | 0, _ => none
  | _ + 1, [] => some []
  | fuel + 1, a :: b :: rest2 =>
    if a = 92 then (instrFuel cfg fuel rest2).map (fun t => (a, Tag.esc) :: (b, Tag.esc) :: t)
    else
      let p := normStep cfg (a :: b :: rest2)
      (instrFuel cfg fuel p.2).map (fun t => p.1 ++ t)
  | fuel + 1, [a] =>
    let p := normStep cfg [a]
    (instrFuel cfg fuel p.2).map (fun t => p.1 ++ t)

/-- `compress_code(content_bytes, ext)` of src/vmrg.py lines 212-271.
Fuel `length + 1` is always sufficient (proved below), so the `getD` never
takes its default. -/
def compress_code (content : List Nat) (ext : String) : List Nat :=
  (compressFuel (getConfig ext) (content.length + 1) content).getD []

/-- Tagged compression output. -/
def instrCompress (content : List Nat) (ext : String) : List (Nat × Tag) :=
  (instrFuel (getConfig ext) (content.length + 1) content).getD []

/-! ## Content classifiers

A file on disk is modelled as `Option (List Nat)`: `none` when `stat` or
`open`/`read` raises (I/O or permission failure), `some d` when the file's
bytes are `d` (so its `st_size` is `d.length`). -/

/-- `MAX_FILE_SIZE = 10 * 1024 * 1024` (src/vmrg.py line 20). -/
def MAX_FILE_SIZE : Nat := 10485760

/-- The bytes `is_text` inspects (src/vmrg.py lines 198-207): the whole
file when the size is below 1024, else the first `min(8192, size)` bytes
(both the mmap sample and the `f.read(8192)` fallback read that window). -/
def sampleWindow (d : List Nat) : List Nat :=
  if d.length < 1024 then d else d.take 8192

/-- `is_text` of src/vmrg.py lines 192-209.  Any exception (the outer
bare `except`) yields `False`. -/
def is_text : Option (List Nat) → Bool
  | none => false
  | some d =>
    if d.length = 0 ∨ MAX_FILE_SIZE < d.length then false
    else !(sampleWindow d).contains 0

/-- `is_text_file` of src/vibemerge.py lines 37-47: the sampled chunk is
`f.read(min(size, 1024))`, regardless of how large the file is. -/
def is_text_file : Option (List Nat) → Bool
  | none => false
  | some d =>
    if d.length = 0 ∨ MAX_FILE_SIZE < d.length then false
    else !((d.take (min d.length 1024)).contains 0)

/-! ## File collection and the byte budget

A discovery candidate carries its path, its size, and one flag `ok`
summarizing the per-file checks that do not interact with the budget
(`is_file`, `should_ignore`, `is_text`, `stat` succeeding): each of those
is a pure function of the file alone, evaluated in src/vmrg.py lines
378-391 and 413-424 before the budget test. -/

/-- `MAX_TOTAL_SIZE = 1024 * 1024 * 1024` (src/vmrg.py line 21). -/
def MAX_TOTAL_SIZE : Nat := 1073741824

/-- A file reached by the walk or given explicitly. -/
structure Cand where
  path : String
  size : Nat
  ok : Bool
deriving DecidableEq, Repr

/-- The admission loop shared by `collect_files_from_dirs` (src/vmrg.py
lines 378-398, the `for fpath, basedir in all_paths` loop) and the
explicit-file loop of `collect_files` (lines 413-431): skip candidates
failing the per-file checks; `break` out of the whole loop as soon as
`total + fsize > MAX_TOTAL_SIZE`; otherwise admit the file and accumulate
its size.  Returns (admitted candidates in walk order, final total). -/
def walkCollect : List Cand → Nat → List Cand × Nat
  | [], total => ([], total)
  | c :: cs, total =>
    if !c.ok then walkCollect cs total
    else if MAX_TOTAL_SIZE < total + c.size then ([], total)
    else
      let p := walkCollect cs (total + c.size)
      (c :: p.1, p.2)

/-- The prefix-fitting loop of `collect_files` (src/vmrg.py lines
440-447), run when the directory haul would overflow the remaining
budget: admit directory files in walk order while they fit `remaining`.
Returns (admitted candidates, accumulated size). -/
def prefixFit : List Cand → Nat → Nat → List Cand × Nat
  | [], _, acc => ([], acc)
  | c :: cs, rem, acc =>
    if rem < acc + c.size then ([], acc)
    else
      let p := prefixFit cs rem (acc + c.size)
      (c :: p.1, p.2)

/-- Lexicographic comparison of character sequences by code point — the
order Python uses on path strings. -/
def charsLe : List Char → List Char → Bool
  | [], _ => true
  | _ :: _, [] => false
  | a :: as, b :: bs =>
    if a.toNat < b.toNat then true
    else if b.toNat < a.toNat then false
    else charsLe as bs

/-- Lexicographic order on path strings. -/
def pathLe (a b : String) : Prop := charsLe a.data b.data = true

instance : DecidableRel pathLe := fun a b => instDecidableEqBool (charsLe a.data b.data) true

/-- The order `sorted(files, key=lambda x: x[0])` sorts by. -/
def candLe (a b : Cand) : Prop := pathLe a.path b.path

instance : DecidableRel candLe := fun a b => inferInstanceAs (Decidable (pathLe a.path b.path))

/-- Sorting by full path, `sorted(files, key=lambda x: x[0])`
(src/vmrg.py line 452). -/
def sortCands (l : List Cand) : List Cand :=
  l.insertionSort candLe

/-- `collect_files` of src/vmrg.py lines 403-452: validate explicit files
first (their own budget loop), then take the directory haul whole if it
fits the remaining budget and otherwise a prefix of it, and finally sort
all admitted files by path.  Returns (sorted admitted files, total
admitted bytes). -/
def collect_files (inputFiles dirCands : List Cand) : List Cand × Nat :=
  let p1 := walkCollect inputFiles 0
  let pd := walkCollect dirCands 0
  if MAX_TOTAL_SIZE < p1.2 + pd.2 then
    let q := prefixFit pd.1 (MAX_TOTAL_SIZE - p1.2) 0
    (sortCands (p1.1 ++ q.1), p1.2 + q.2)
  else (sortCands (p1.1 ++ pd.1), p1.2 + pd.2)

/-- Sum of the sizes of a list of candidates. -/
def sumSizes (l : List Cand) : Nat := (l.map Cand.size).sum

/-! ## Merge orchestration

The content of an admitted file, as written to the output, is modelled
as the decoded (and, when the flag is set, compressed) text the Python
code holds in `content_str` / `content`; `none` models a failed
`read_file`.  Both output modes of `merge_files` (src/vmrg.py lines
518-596) are embedded: the parallel mode as an index-tagged buffer filled
in an arbitrary completion order and drained in index order, the
sequential mode as a direct loop. -/

/-- An admitted file as seen by the merge phase. -/
structure MFile where
  path : String
  content : Option String
deriving DecidableEq, Repr

/-- A worker result (the dict built by `process_file_worker`, src/vmrg.py
lines 326-332, restricted to the fields the writer uses). -/
structure ProcRes where
  path : String
  content : String
deriving DecidableEq, Repr

/-- The 80-dash delimiter line `'-' * 80`. -/
def dashes80 : String := String.mk (List.replicate 80 '-')

/-- The header built by `process_file_worker` (src/vmrg.py line 324):
dashes, `FILE: <rel>`, dashes, blank line. -/
def headerStr (p : String) : String :=
  dashes80 ++ "\nFILE: " ++ p ++ "\n" ++ dashes80 ++ "\n\n"

/-- `process_file_worker` (src/vmrg.py lines 295-334): `none` when the
read fails, else the path together with the processed content (which the
worker does not strip). -/
def processFile (f : MFile) : Option ProcRes :=
  f.content.map (fun c => ⟨f.path, c⟩)

/-- The task for input index `i`, `process_file_worker(files[i], ...)`. -/
def procAt (files : List MFile) (i : Nat) : Option ProcRes :=
  match files.get? i with
  | some f => processFile f
  | none => none

/-- The parallel result buffer `results = [None] * len(files)` filled in
task completion order (src/vmrg.py lines 519-533): `order` lists the
indices in the order `as_completed` yields their futures. -/
def fillBuffer (files : List MFile) (order : List Nat) : List (Option ProcRes) :=
  order.foldl (fun acc i => acc.set i (procAt files i)) (List.replicate files.length none)

/-- The drain loop of parallel mode (src/vmrg.py lines 540-550): walk the
buffer in index order, skip `None` entries, write `'\n\n'` before every
block whose index is positive, then the header and the content. -/
def drainPar : Nat → List (Option ProcRes) → String
  | _, [] => ""
  | i, none :: rest => drainPar (i + 1) rest
  | i, some r :: rest =>
    (if 0 < i then "\n\n" else "") ++ headerStr r.path ++ r.content ++ drainPar (i + 1) rest

/-- Parallel-mode output for a given task completion order. -/
def parallelMerge (files : List MFile) (order : List Nat) : String :=
  drainPar 0 (fillBuffer files order)

/-- The paths whose blocks the parallel drain emits, in emission order. -/
def parPathsFrom (results : List (Option ProcRes)) : List String :=
  results.filterMap (fun o => o.map ProcRes.path)

/-- `True` for the characters Python's `str.rstrip()` removes from ASCII
text (space, tab, line feed, carriage return, vertical tab, form feed). -/
def isPyWs (c : Char) : Bool :=
  c = ' ' || c = '\t' || c = '\n' || c = '\r' || c = '\x0b' || c = '\x0c'

/-- `content.rstrip()` on ASCII text. -/
def pyRstrip (s : String) : String :=
  String.mk ((s.data.reverse.dropWhile fun c => isPyWs c).reverse)

/-- One block of sequential mode (src/vmrg.py lines 561-594): `'\n\n'`
before every block of positive index, then `FILE: <rel>` — with no
delimiter line before it — then one delimiter line plus a blank line, and
the right-stripped content (nothing if the read failed, the header having
already been written). -/
def seqBlock (i : Nat) (f : MFile) : String :=
  (if 0 < i then "\n\n" else "") ++ "FILE: " ++ f.path ++ "\n" ++ dashes80 ++ "\n\n" ++
    (match f.content with
     | some c => pyRstrip c
     | none => "")

/-- Sequential-mode loop over the sorted files. -/
def seqMergeAux : Nat → List MFile → String
  | _, [] => ""
  | i, f :: rest => seqBlock i f ++ seqMergeAux (i + 1) rest

/-- Sequential-mode output. -/
def seqMerge (files : List MFile) : String := seqMergeAux 0 files

/-- The paths whose headers sequential mode emits, in emission order
(every file's header is written, even when its read fails). -/
def seqPaths (files : List MFile) : List String := files.map MFile.path

/-! ## The legacy collector of src/vibemerge.py

`collect_files` of src/vibemerge.py lines 50-80 walks the directory tree
one directory at a time; the budget `break` leaves only the inner
per-directory loop, so the walk continues with the next directory.  Each
`os.walk` directory is one group of candidates, in walk order; the inner
loop over one group is the same admission loop as `walkCollect`. -/

def walkGroups : List (List Cand) → Nat → List Cand × Nat
  | [], total => ([], total)
  | g :: gs, total =>
    let p := walkCollect g total
    let q := walkGroups gs p.2
    (p.1 ++ q.1, q.2)

/-- `collect_files` of src/vibemerge.py lines 50-80: per-directory
admission with a per-directory budget break, then a final sort. -/
def collect_files_legacy (groups : List (List Cand)) : List Cand × Nat :=
  (sortCands (walkGroups groups 0).1, (walkGroups groups 0).2)

/-- Every string start delimiter of the profile is non-empty.  This is
what makes each outer iteration of `compress_code` consume at least one
input byte. -/
def goodStrings (cfg : LangConfig) : Prop := ∀ sd ∈ cfg.strings, sd.1 ≠ []

instance (cfg : LangConfig) : Decidable (goodStrings cfg) :=
  inferInstanceAs (Decidable (∀ sd ∈ cfg.strings, sd.1 ≠ []))

/-- An output byte that is insignificant whitespace yet was not emitted
from a detected string-literal region. -/
def badWs (p : Nat × Tag) : Prop := p.2 ≠ Tag.lit ∧ isWs p.1 = true

instance (p : Nat × Tag) : Decidable (badWs p) :=
  inferInstanceAs (Decidable (p.2 ≠ Tag.lit ∧ isWs p.1 = true))

/-- Relation between adjacent output bytes: a non-literal whitespace byte
is always immediately preceded by the backslash of its escape pair. -/
def escR (u v : Nat × Tag) : Prop := badWs v → u = (92, Tag.esc)

/-- Invariant of the tagged output: adjacent bytes satisfy `escR`, the
first byte is never non-literal whitespace, and plainly copied bytes are
never whitespace. -/
def okOut (l : List (Nat × Tag)) : Prop :=
  List.Chain' escR l ∧ (∀ y ∈ l.head?, ¬ badWs y) ∧
    (∀ p ∈ l, p.2 = Tag.plain → isWs p.1 = false)


end Vibemerge


namespace Vibemerge

/-! ## Basic lemmas about prefixes and the scanning loops -/

theorem take_of_isPrefixOf : ∀ (s l : List Nat), s.isPrefixOf l = true → l.take s.length = s := by
  intro s
  induction s with
  | nil => intro l _; simp
  | cons a as ih =>
    intro l h
    cases l with
    | nil => simp [List.isPrefixOf] at h
    | cons b bs =>
      simp only [List.isPrefixOf, Bool.and_eq_true, beq_iff_eq] at h
      obtain ⟨rfl, h2⟩ := h
      simp [List.take, ih bs h2]

theorem length_le_of_isPrefixOf (s l : List Nat) (h : s.isPrefixOf l = true) :
    s.length ≤ l.length := by
  have ht := take_of_isPrefixOf s l h
  have : (l.take s.length).length = min s.length l.length := List.length_take _ _
  rw [ht] at this
  omega

theorem lineLoop_take_drop : ∀ rest : List Nat, ∃ k, lineLoop rest = (rest.take k, rest.drop k) := by
  intro rest
  induction rest with
  | nil => exact ⟨0, rfl⟩
  | cons a rs ih =>
    by_cases h : a = 10 ∨ a = 13
    · exact ⟨0, by simp [lineLoop, h]⟩
    · obtain ⟨k, hk⟩ := ih
      exact ⟨k + 1, by simp [lineLoop, h, hk]⟩

theorem stringLoop_take_drop_fuel (e : List Nat) :
    ∀ (n : Nat) (rest : List Nat), rest.length ≤ n →
      ∃ k, stringLoop e rest = (rest.take k, rest.drop k) := by
  intro n
  induction n with
  | zero =>
    intro rest h
    have : rest = [] := List.eq_nil_of_length_eq_zero (by omega)
    exact ⟨0, by simp [this, stringLoop]⟩
  | succ n ih =>
    intro rest h
    match rest with
    | [] => exact ⟨0, rfl⟩
    | [a] =>
      simp only [stringLoop]
      by_cases h1 : e.length ≤ 1
      · rw [if_pos h1]
        by_cases h2 : e.isPrefixOf [a] = true
        · exact ⟨e.length, by rw [if_pos h2, take_of_isPrefixOf e _ h2]⟩
        · rw [if_neg h2]
          exact ⟨1, by simp⟩
      · rw [if_neg h1]
        exact ⟨0, by simp⟩
    | a :: b :: rs2 =>
      simp only [stringLoop]
      by_cases h1 : e.length ≤ (a :: b :: rs2).length
      · rw [if_pos h1]
        by_cases h2 : e.isPrefixOf (a :: b :: rs2) = true
        · exact ⟨e.length, by rw [if_pos h2, take_of_isPrefixOf e _ h2]⟩
        · rw [if_neg h2]
          by_cases h3 : a = 92
          · obtain ⟨k, hk⟩ := ih rs2 (by simp only [List.length_cons] at h ⊢; omega)
            rw [if_pos h3]
            exact ⟨k + 2, by simp [hk]⟩
          · obtain ⟨k, hk⟩ := ih (b :: rs2) (by simp only [List.length_cons] at h ⊢; omega)
            rw [if_neg h3]
            exact ⟨k + 1, by simp [hk]⟩
      · rw [if_neg h1]
        exact ⟨0, by simp⟩

theorem stringLoop_take_drop (e rest : List Nat) :
    ∃ k, stringLoop e rest = (rest.take k, rest.drop k) :=
  stringLoop_take_drop_fuel e rest.length rest le_rfl

theorem stringLoop_append (e rest : List Nat) :
    (stringLoop e rest).1 ++ (stringLoop e rest).2 = rest := by
  obtain ⟨k, hk⟩ := stringLoop_take_drop e rest
  rw [hk]
  exact List.take_append_drop k rest

theorem stringLoop_len (e rest : List Nat) :
    (stringLoop e rest).1.length + (stringLoop e rest).2.length = rest.length := by
  have := congrArg List.length (stringLoop_append e rest)
  simpa [List.length_append] using this

theorem stringLoop_rest_le (e rest : List Nat) :
    (stringLoop e rest).2.length ≤ rest.length := by
  have := stringLoop_len e rest
  omega

theorem lineLoop_append (rest : List Nat) :
    (lineLoop rest).1 ++ (lineLoop rest).2 = rest := by
  obtain ⟨k, hk⟩ := lineLoop_take_drop rest
  rw [hk]
  exact List.take_append_drop k rest

theorem lineLoop_len (rest : List Nat) :
    (lineLoop rest).1.length + (lineLoop rest).2.length = rest.length := by
  have := congrArg List.length (lineLoop_append rest)
  simpa [List.length_append] using this

theorem lineLoop_rest_le (rest : List Nat) :
    (lineLoop rest).2.length ≤ rest.length := by
  have := lineLoop_len rest
  omega

/-- `loopRun` also emits exactly the bytes it scans. -/
theorem loopRun_take_drop (e rest : List Nat) :
    ∃ k, loopRun e rest = (rest.take k, rest.drop k) := by
  unfold loopRun
  by_cases he : e = []
  · rw [if_pos he]; exact lineLoop_take_drop rest
  · rw [if_neg he]; exact stringLoop_take_drop e rest

theorem loopRun_len (e rest : List Nat) :
    (loopRun e rest).1.length + (loopRun e rest).2.length = rest.length := by
  obtain ⟨k, hk⟩ := loopRun_take_drop e rest
  rw [hk]
  simp only [List.length_take, List.length_drop]
  omega

theorem loopRun_rest_le (e rest : List Nat) :
    (loopRun e rest).2.length ≤ rest.length := by
  have := loopRun_len e rest
  omega

/-! ## The delimiter tables are well formed -/

theorem configs_good : ∀ p ∈ LANGUAGE_CONFIGS, goodStrings p.2 := by decide

theorem default_good : goodStrings defaultConfig := by decide

theorem getConfig_good (ext : String) : goodStrings (getConfig ext) := by
  unfold getConfig
  rcases hf : LANGUAGE_CONFIGS.find? (fun p => p.1 == ext) with _ | p
  · rw [hf]
    exact default_good
  · rw [hf]
    exact configs_good p (List.mem_of_find?_eq_some hf)

/-! ## Facts about one normal-state step -/

/-- Unfolding of `normStep` when a string start delimiter matches. -/
theorem normStep_found (cfg : LangConfig) (a : Nat) (rest s e : List Nat)
    (hf : cfg.strings.find? (fun sd => sd.1.isPrefixOf (a :: rest)) = some (s, e)) :
    normStep cfg (a :: rest)
      = ((s ++ (loopRun e ((a :: rest).drop s.length)).1).map (fun x => (x, Tag.lit)),
         (loopRun e ((a :: rest).drop s.length)).2) := by
  simp [normStep, hf]

theorem normStep_rest_lt (cfg : LangConfig) (hg : goodStrings cfg) (a : Nat) (rest : List Nat) :
    (normStep cfg (a :: rest)).2.length < (a :: rest).length := by
  rcases hf : cfg.strings.find? (fun sd => sd.1.isPrefixOf (a :: rest)) with _ | se
  · by_cases hw : isWs a <;> simp [normStep, hf, hw]
  · obtain ⟨s, e⟩ := se
    have hpre : s.isPrefixOf (a :: rest) = true := by simpa using List.find?_some hf
    have hs : s ≠ [] := hg _ (List.mem_of_find?_eq_some hf)
    have hsl : 0 < s.length := List.length_pos.mpr hs
    have hle := length_le_of_isPrefixOf s _ hpre
    have hdrop : ((a :: rest).drop s.length).length = (a :: rest).length - s.length :=
      List.length_drop _ _
    have hloop := loopRun_rest_le e ((a :: rest).drop s.length)
    rw [normStep_found cfg a rest s e hf]
    simp only [List.length_cons] at *
    omega

theorem normStep_len (cfg : LangConfig) (a : Nat) (rest : List Nat) :
    (normStep cfg (a :: rest)).1.length + (normStep cfg (a :: rest)).2.length
      ≤ (a :: rest).length := by
  rcases hf : cfg.strings.find? (fun sd => sd.1.isPrefixOf (a :: rest)) with _ | se
  · by_cases hw : isWs a
    · simp [normStep, hf, hw]
    · simp only [normStep, hf, if_neg hw, List.length_cons, List.length_nil]
      omega
  · obtain ⟨s, e⟩ := se
    have hpre : s.isPrefixOf (a :: rest) = true := by simpa using List.find?_some hf
    have hle := length_le_of_isPrefixOf s _ hpre
    have hdrop : ((a :: rest).drop s.length).length = (a :: rest).length - s.length :=
      List.length_drop _ _
    have hloop := loopRun_len e ((a :: rest).drop s.length)
    rw [normStep_found cfg a rest s e hf]
    simp only [List.length_map, List.length_append]
    simp only [List.length_cons] at *
    omega

theorem normStep_shape (cfg : LangConfig) (content : List Nat) :
    (∀ q ∈ (normStep cfg content).1, q.2 = Tag.lit)
    ∨ (normStep cfg content).1 = []
    ∨ (∃ x, (normStep cfg content).1 = [(x, Tag.plain)] ∧ isWs x = false) := by
  match content with
  | [] => exact Or.inr (Or.inl rfl)
  | a :: rest =>
    rcases hf : cfg.strings.find? (fun sd => sd.1.isPrefixOf (a :: rest)) with _ | se
    · by_cases hw : isWs a
      · exact Or.inr (Or.inl (by simp [normStep, hf, hw]))
      · refine Or.inr (Or.inr ⟨a, by simp [normStep, hf, hw], by simpa using hw⟩)
    · obtain ⟨s, e⟩ := se
      left
      intro q hq
      rw [normStep_found cfg a rest s e hf] at hq
      obtain ⟨x, _, rfl⟩ := List.mem_map.mp hq
      rfl

end Vibemerge

namespace Vibemerge

/-! ## Unfolding equations for the outer scan -/

theorem compressFuel_nil (cfg : LangConfig) (fuel : Nat) :
    compressFuel cfg (fuel + 1) [] = some [] := rfl

theorem compressFuel_esc (cfg : LangConfig) (fuel b : Nat) (rs : List Nat) :
    compressFuel cfg (fuel + 1) (92 :: b :: rs)
      = (compressFuel cfg fuel rs).map (fun t => 92 :: b :: t) := by
  simp [compressFuel]

theorem compressFuel_one (cfg : LangConfig) (fuel a : Nat) :
    compressFuel cfg (fuel + 1) [a]
      = (compressFuel cfg fuel (normStep cfg [a]).2).map
          (fun t => (normStep cfg [a]).1.map Prod.fst ++ t) := by
  simp [compressFuel]

theorem compressFuel_cons (cfg : LangConfig) (fuel a b : Nat) (rs : List Nat) (h : ¬ a = 92) :
    compressFuel cfg (fuel + 1) (a :: b :: rs)
      = (compressFuel cfg fuel (normStep cfg (a :: b :: rs)).2).map
          (fun t => (normStep cfg (a :: b :: rs)).1.map Prod.fst ++ t) := by
  simp [compressFuel, h]

theorem instrFuel_nil (cfg : LangConfig) (fuel : Nat) :
    instrFuel cfg (fuel + 1) [] = some [] := rfl

theorem instrFuel_esc (cfg : LangConfig) (fuel b : Nat) (rs : List Nat) :
    instrFuel cfg (fuel + 1) (92 :: b :: rs)
      = (instrFuel cfg fuel rs).map (fun t => (92, Tag.esc) :: (b, Tag.esc) :: t) := by
  simp [instrFuel]

theorem instrFuel_one (cfg : LangConfig) (fuel a : Nat) :
    instrFuel cfg (fuel + 1) [a]
      = (instrFuel cfg fuel (normStep cfg [a]).2).map
          (fun t => (normStep cfg [a]).1 ++ t) := by
  simp [instrFuel]

theorem instrFuel_cons (cfg : LangConfig) (fuel a b : Nat) (rs : List Nat) (h : ¬ a = 92) :
    instrFuel cfg (fuel + 1) (a :: b :: rs)
      = (instrFuel cfg fuel (normStep cfg (a :: b :: rs)).2).map
          (fun t => (normStep cfg (a :: b :: rs)).1 ++ t) := by
  simp [instrFuel, h]

/-! ## Termination with linear fuel, output length, tag erasure -/

theorem compressFuel_isSome (cfg : LangConfig) (hg : goodStrings cfg) :
    ∀ (fuel : Nat) (content : List Nat), content.length < fuel →
      (compressFuel cfg fuel content).isSome = true := by
  intro fuel
  induction fuel with
  | zero => intro content h; omega
  | succ fuel ih =>
    intro content h
    match content with
    | [] => simp [compressFuel]
    | [a] =>
      rw [compressFuel_one]
      have h2 := normStep_rest_lt cfg hg a []
      have h3 := ih (normStep cfg [a]).2
        (by simp only [List.length_cons, List.length_nil] at h h2 ⊢; omega)
      simpa using h3
    | a :: b :: rs =>
      by_cases h92 : a = 92
      · subst h92
        rw [compressFuel_esc]
        have h3 := ih rs (by simp only [List.length_cons] at h ⊢; omega)
        simpa using h3
      · rw [compressFuel_cons cfg fuel a b rs h92]
        have h2 := normStep_rest_lt cfg hg a (b :: rs)
        have h3 := ih (normStep cfg (a :: b :: rs)).2
          (by simp only [List.length_cons] at h h2 ⊢; omega)
        simpa using h3

theorem compressFuel_length (cfg : LangConfig) :
    ∀ (fuel : Nat) (content out : List Nat),
      compressFuel cfg fuel content = some out → out.length ≤ content.length := by
  intro fuel
  induction fuel with
  | zero => intro content out h; simp [compressFuel] at h
  | succ fuel ih =>
    intro content out h
    match content with
    | [] =>
      rw [compressFuel_nil] at h
      simp only [Option.some.injEq] at h
      simp [← h]
    | [a] =>
      rw [compressFuel_one] at h
      rcases Option.map_eq_some'.mp h with ⟨t, ht, rfl⟩
      have h1 := ih _ t ht
      have h2 := normStep_len cfg a []
      simp only [List.length_append, List.length_map, List.length_cons, List.length_nil] at *
      omega
    | a :: b :: rs =>
      by_cases h92 : a = 92
      · subst h92
        rw [compressFuel_esc] at h
        rcases Option.map_eq_some'.mp h with ⟨t, ht, rfl⟩
        have h1 := ih _ t ht
        simp only [List.length_cons] at *
        omega
      · rw [compressFuel_cons cfg fuel a b rs h92] at h
        rcases Option.map_eq_some'.mp h with ⟨t, ht, rfl⟩
        have h1 := ih _ t ht
        have h2 := normStep_len cfg a (b :: rs)
        simp only [List.length_append, List.length_map, List.length_cons] at *
        omega

theorem instrFuel_erase (cfg : LangConfig) :
    ∀ (fuel : Nat) (content : List Nat),
      (instrFuel cfg fuel content).map (List.map Prod.fst) = compressFuel cfg fuel content := by
  intro fuel
  induction fuel with
  | zero => intro content; rfl
  | succ fuel ih =>
    intro content
    match content with
    | [] => rfl
    | [a] =>
      rw [instrFuel_one, compressFuel_one, ← ih, Option.map_map, Option.map_map]
      congr 1
      funext t
      simp
    | a :: b :: rs =>
      by_cases h92 : a = 92
      · subst h92
        rw [instrFuel_esc, compressFuel_esc, ← ih, Option.map_map, Option.map_map]
        rfl
      · rw [instrFuel_cons cfg fuel a b rs h92, compressFuel_cons cfg fuel a b rs h92,
          ← ih, Option.map_map, Option.map_map]
        congr 1
        funext t
        simp

/-! ## The comment table has no effect on the output -/

theorem normStep_congr (cfg1 cfg2 : LangConfig) (h : cfg1.strings = cfg2.strings)
    (l : List Nat) : normStep cfg1 l = normStep cfg2 l := by
  cases l <;> simp [normStep, h]

theorem compressFuel_congr (cfg1 cfg2 : LangConfig) (h : cfg1.strings = cfg2.strings) :
    ∀ (fuel : Nat) (content : List Nat),
      compressFuel cfg1 fuel content = compressFuel cfg2 fuel content := by
  intro fuel
  induction fuel with
  | zero => intro content; rfl
  | succ fuel ih =>
    intro content
    match content with
    | [] => rfl
    | [a] =>
      rw [compressFuel_one, compressFuel_one, normStep_congr cfg1 cfg2 h, ih]
    | a :: b :: rs =>
      by_cases h92 : a = 92
      · subst h92
        rw [compressFuel_esc, compressFuel_esc, ih]
      · rw [compressFuel_cons cfg1 fuel a b rs h92, compressFuel_cons cfg2 fuel a b rs h92,
          normStep_congr cfg1 cfg2 h, ih]

/-! ## Provenance of whitespace in the output -/

theorem okOut_nil : okOut [] := by
  refine ⟨List.chain'_nil, ?_, ?_⟩ <;> simp

theorem okOut_lit_append (c l : List (Nat × Tag)) (hc : ∀ q ∈ c, q.2 = Tag.lit)
    (hl : okOut l) : okOut (c ++ l) := by
  induction c with
  | nil => simpa using hl
  | cons x c ih =>
    have hx : x.2 = Tag.lit := hc x (by simp)
    have ih2 := ih (fun q hq => hc q (by simp [hq]))
    obtain ⟨hch, hhd, hpl⟩ := ih2
    refine ⟨?_, ?_, ?_⟩
    · rw [List.cons_append]
      refine List.chain'_cons'.mpr ⟨?_, hch⟩
      intro y hy hb
      exact absurd hb (hhd y hy)
    · intro y hy
      simp only [List.cons_append, List.head?_cons, Option.mem_def, Option.some.injEq] at hy
      subst hy
      intro hb
      exact hb.1 hx
    · intro p hp hpt
      rcases List.mem_cons.mp hp with rfl | hp2
      · rw [hx] at hpt; cases hpt
      · exact hpl p hp2 hpt

theorem okOut_esc_cons (b : Nat) (l : List (Nat × Tag)) (hl : okOut l) :
    okOut ((92, Tag.esc) :: (b, Tag.esc) :: l) := by
  obtain ⟨hch, hhd, hpl⟩ := hl
  refine ⟨?_, ?_, ?_⟩
  · refine List.chain'_cons.mpr ⟨fun _ => rfl, ?_⟩
    refine List.chain'_cons'.mpr ⟨?_, hch⟩
    intro y hy hb
    exact absurd hb (hhd y hy)
  · intro y hy
    simp only [List.head?_cons, Option.mem_def, Option.some.injEq] at hy
    subst hy
    intro hb
    simpa [isWs] using hb.2
  · intro p hp hpt
    rcases List.mem_cons.mp hp with rfl | hp2
    · cases hpt
    · rcases List.mem_cons.mp hp2 with rfl | hp3
      · cases hpt
      · exact hpl p hp3 hpt

theorem okOut_plain_cons (a : Nat) (l : List (Nat × Tag)) (ha : isWs a = false)
    (hl : okOut l) : okOut ((a, Tag.plain) :: l) := by
  obtain ⟨hch, hhd, hpl⟩ := hl
  refine ⟨?_, ?_, ?_⟩
  · refine List.chain'_cons'.mpr ⟨?_, hch⟩
    intro y hy hb
    exact absurd hb (hhd y hy)
  · intro y hy
    simp only [List.head?_cons, Option.mem_def, Option.some.injEq] at hy
    subst hy
    intro hb
    simp [badWs, ha] at hb
  · intro p hp hpt
    rcases List.mem_cons.mp hp with rfl | hp2
    · exact ha
    · exact hpl p hp2 hpt

theorem instrFuel_ok (cfg : LangConfig) :
    ∀ (fuel : Nat) (content : List Nat) (l : List (Nat × Tag)),
      instrFuel cfg fuel content = some l → okOut l := by
  intro fuel
  induction fuel with
  | zero => intro content l h; simp [instrFuel] at h
  | succ fuel ih =>
    intro content l h
    match content with
    | [] =>
      rw [instrFuel_nil] at h
      simp only [Option.some.injEq] at h
      rw [← h]
      exact okOut_nil
    | [a] =>
      rw [instrFuel_one] at h
      rcases Option.map_eq_some'.mp h with ⟨t, ht, rfl⟩
      have hok := ih _ t ht
      rcases normStep_shape cfg [a] with hsh | hsh | ⟨x, hsh, hx⟩
      · exact okOut_lit_append _ _ hsh hok
      · rw [hsh]; simpa using hok
      · rw [hsh]; exact okOut_plain_cons x t hx hok
    | a :: b :: rs =>
      by_cases h92 : a = 92
      · subst h92
        rw [instrFuel_esc] at h
        rcases Option.map_eq_some'.mp h with ⟨t, ht, rfl⟩
        exact okOut_esc_cons b t (ih _ t ht)
      · rw [instrFuel_cons cfg fuel a b rs h92] at h
        rcases Option.map_eq_some'.mp h with ⟨t, ht, rfl⟩
        have hok := ih _ t ht
        rcases normStep_shape cfg (a :: b :: rs) with hsh | hsh | ⟨x, hsh, hx⟩
        · exact okOut_lit_append _ _ hsh hok
        · rw [hsh]; simpa using hok
        · rw [hsh]; exact okOut_plain_cons x t hx hok

/-- With fuel `length + 1` the instrumented scan also always succeeds. -/
theorem instrFuel_isSome (cfg : LangConfig) (hg : goodStrings cfg)
    (content : List Nat) : (instrFuel cfg (content.length + 1) content).isSome = true := by
  have h1 := instrFuel_erase cfg (content.length + 1) content
  have h2 := compressFuel_isSome cfg hg (content.length + 1) content (by omega)
  rcases hi : instrFuel cfg (content.length + 1) content with _ | l
  · rw [hi] at h1
    rw [← h1] at h2
    simp at h2
  · rfl

end Vibemerge

namespace Vibemerge

/-! ## The path order is total and transitive -/

theorem charsLe_total : ∀ as bs : List Char, charsLe as bs = true ∨ charsLe bs as = true := by
  intro as
  induction as with
  | nil => intro bs; left; rfl
  | cons a as ih =>
    intro bs
    cases bs with
    | nil => right; rfl
    | cons b bs =>
      by_cases h1 : a.toNat < b.toNat
      · left; simp [charsLe, h1]
      · by_cases h2 : b.toNat < a.toNat
        · right; simp [charsLe, h2]
        · rcases ih bs with h | h
          · left; simp [charsLe, h1, h2, h]
          · right; simp [charsLe, h1, h2, h]

theorem charsLe_trans : ∀ as bs cs : List Char,
    charsLe as bs = true → charsLe bs cs = true → charsLe as cs = true := by
  intro as
  induction as with
  | nil => intro bs cs _ _; rfl
  | cons a as ih =>
    intro bs cs h1 h2
    cases bs with
    | nil => simp [charsLe] at h1
    | cons b bs =>
      cases cs with
      | nil => simp [charsLe] at h2
      | cons c cs =>
        simp only [charsLe] at h1 h2 ⊢
        split_ifs at h1 h2 ⊢ <;>
          first
            | rfl
            | exact ih bs cs h1 h2
            | (exfalso; omega)

theorem sortCands_sorted (l : List Cand) : List.Sorted candLe (sortCands l) :=
  @List.sorted_insertionSort Cand candLe _
    ⟨fun a b => charsLe_total a.path.data b.path.data⟩
    ⟨fun a b c h1 h2 => charsLe_trans a.path.data b.path.data c.path.data h1 h2⟩ l

theorem sortCands_perm (l : List Cand) : (sortCands l).Perm l :=
  List.perm_insertionSort candLe l

theorem sorted_paths_sortCands (l : List Cand) :
    List.Sorted pathLe ((sortCands l).map Cand.path) := by
  have h2 : List.Pairwise candLe (sortCands l) := sortCands_sorted l
  exact List.pairwise_map.mpr (by simpa [candLe] using h2)

/-! ## Budget arithmetic of the collectors -/

theorem sumSizes_nil : sumSizes [] = 0 := rfl

theorem sumSizes_cons (c : Cand) (l : List Cand) :
    sumSizes (c :: l) = c.size + sumSizes l := by
  simp [sumSizes]

theorem sumSizes_append (l1 l2 : List Cand) :
    sumSizes (l1 ++ l2) = sumSizes l1 + sumSizes l2 := by
  simp [sumSizes]

theorem sumSizes_perm (l1 l2 : List Cand) (h : l1.Perm l2) : sumSizes l1 = sumSizes l2 :=
  List.Perm.sum_eq (List.Perm.map Cand.size h)

theorem walkCollect_le : ∀ (cs : List Cand) (total : Nat), total ≤ MAX_TOTAL_SIZE →
    (walkCollect cs total).2 ≤ MAX_TOTAL_SIZE := by
  intro cs
  induction cs with
  | nil => intro t h; simpa [walkCollect] using h
  | cons c cs ih =>
    intro t h
    rcases hok : c.ok with _ | _
    · simp only [walkCollect, hok, Bool.not_false, if_pos]
      exact ih t h
    · by_cases hb : MAX_TOTAL_SIZE < t + c.size
      · simpa [walkCollect, hok, hb] using h
      · simp only [walkCollect, hok, Bool.not_true, if_neg, hb, Bool.false_eq_true,
          if_false]
        exact ih (t + c.size) (by omega)

theorem walkCollect_sum : ∀ (cs : List Cand) (total : Nat),
    (walkCollect cs total).2 = total + sumSizes (walkCollect cs total).1 := by
  intro cs
  induction cs with
  | nil => intro t; simp [walkCollect, sumSizes_nil]
  | cons c cs ih =>
    intro t
    rcases hok : c.ok with _ | _
    · simp only [walkCollect, hok, Bool.not_false, if_pos]
      exact ih t
    · by_cases hb : MAX_TOTAL_SIZE < t + c.size
      · simp [walkCollect, hok, hb, sumSizes_nil]
      · simp only [walkCollect, hok, Bool.not_true, if_neg, hb, Bool.false_eq_true,
          if_false]
        rw [sumSizes_cons, ih (t + c.size)]
        omega

theorem walkCollect_stop (c : Cand) (cs : List Cand) (total : Nat)
    (hok : c.ok = true) (hb : MAX_TOTAL_SIZE < total + c.size) :
    walkCollect (c :: cs) total = ([], total) := by
  simp [walkCollect, hok, hb]

theorem prefixFit_le : ∀ (cs : List Cand) (rem acc : Nat), acc ≤ rem →
    (prefixFit cs rem acc).2 ≤ rem := by
  intro cs
  induction cs with
  | nil => intro rem acc h; simpa [prefixFit] using h
  | cons c cs ih =>
    intro rem acc h
    by_cases hb : rem < acc + c.size
    · simpa [prefixFit, hb] using h
    · simp only [prefixFit, if_neg (by omega : ¬ rem < acc + c.size)]
      exact ih rem (acc + c.size) (by omega)

theorem prefixFit_sum : ∀ (cs : List Cand) (rem acc : Nat),
    (prefixFit cs rem acc).2 = acc + sumSizes (prefixFit cs rem acc).1 := by
  intro cs
  induction cs with
  | nil => intro rem acc; simp [prefixFit, sumSizes_nil]
  | cons c cs ih =>
    intro rem acc
    by_cases hb : rem < acc + c.size
    · simp [prefixFit, hb, sumSizes_nil]
    · simp only [prefixFit, if_neg (by omega : ¬ rem < acc + c.size)]
      rw [sumSizes_cons, ih rem (acc + c.size)]
      omega

theorem walkGroups_le : ∀ (groups : List (List Cand)) (total : Nat),
    total ≤ MAX_TOTAL_SIZE → (walkGroups groups total).2 ≤ MAX_TOTAL_SIZE := by
  intro groups
  induction groups with
  | nil => intro t h; simpa [walkGroups] using h
  | cons g gs ih =>
    intro t h
    simp only [walkGroups]
    exact ih (walkCollect g t).2 (walkCollect_le g t h)

theorem walkGroups_sum : ∀ (groups : List (List Cand)) (total : Nat),
    (walkGroups groups total).2 = total + sumSizes (walkGroups groups total).1 := by
  intro groups
  induction groups with
  | nil => intro t; simp [walkGroups, sumSizes_nil]
  | cons g gs ih =>
    intro t
    have hg := walkCollect_sum g t
    have hgs := ih (walkCollect g t).2
    simp only [walkGroups, sumSizes_append]
    omega

theorem collect_files_legacy_le (groups : List (List Cand)) :
    (collect_files_legacy groups).2 ≤ MAX_TOTAL_SIZE :=
  walkGroups_le groups 0 (Nat.zero_le _)

theorem collect_files_legacy_sum (groups : List (List Cand)) :
    (collect_files_legacy groups).2 = sumSizes (collect_files_legacy groups).1 := by
  have h := walkGroups_sum groups 0
  simp only [collect_files_legacy]
  rw [sumSizes_perm _ _ (sortCands_perm _)]
  omega

theorem collect_files_le (inputFiles dirCands : List Cand) :
    (collect_files inputFiles dirCands).2 ≤ MAX_TOTAL_SIZE := by
  have h1 : (walkCollect inputFiles 0).2 ≤ MAX_TOTAL_SIZE :=
    walkCollect_le inputFiles 0 (Nat.zero_le _)
  unfold collect_files
  by_cases hb : MAX_TOTAL_SIZE < (walkCollect inputFiles 0).2 + (walkCollect dirCands 0).2
  · have h2 := prefixFit_le (walkCollect dirCands 0).1
      (MAX_TOTAL_SIZE - (walkCollect inputFiles 0).2) 0 (Nat.zero_le _)
    simp only [if_pos hb]
    omega
  · simp only [if_neg hb]
    omega

theorem collect_files_sum (inputFiles dirCands : List Cand) :
    (collect_files inputFiles dirCands).2 = sumSizes (collect_files inputFiles dirCands).1 := by
  have hin := walkCollect_sum inputFiles 0
  have hdir := walkCollect_sum dirCands 0
  unfold collect_files
  by_cases hb : MAX_TOTAL_SIZE < (walkCollect inputFiles 0).2 + (walkCollect dirCands 0).2
  · have hq := prefixFit_sum (walkCollect dirCands 0).1
      (MAX_TOTAL_SIZE - (walkCollect inputFiles 0).2) 0
    simp only [if_pos hb]
    rw [sumSizes_perm _ _ (sortCands_perm _), sumSizes_append]
    omega
  · simp only [if_neg hb]
    rw [sumSizes_perm _ _ (sortCands_perm _), sumSizes_append]
    omega

theorem collect_files_sorted (inputFiles dirCands : List Cand) :
    List.Sorted pathLe (((collect_files inputFiles dirCands).1).map Cand.path) := by
  unfold collect_files
  by_cases hb : MAX_TOTAL_SIZE < (walkCollect inputFiles 0).2 + (walkCollect dirCands 0).2
  · simp only [if_pos hb]
    exact sorted_paths_sortCands _
  · simp only [if_neg hb]
    exact sorted_paths_sortCands _

end Vibemerge

namespace Vibemerge

/-! ## The indexed result buffer of parallel mode -/

theorem set_getElem? {α : Type} : ∀ (l : List α) (i j : Nat) (v : α),
    (l.set i v)[j]? = if i = j ∧ j < l.length then some v else l[j]? := by
  intro l
  induction l with
  | nil => intro i j v; simp
  | cons a l ih =>
    intro i j v
    cases i with
    | zero =>
      cases j with
      | zero => simp
      | succ j => simp
    | succ i =>
      cases j with
      | zero => simp
      | succ j =>
        simp only [List.set_cons_succ, List.getElem?_cons_succ, List.length_cons]
        rw [ih i j v]
        by_cases h : i = j ∧ j < l.length
        · rw [if_pos h, if_pos (by omega)]
        · rw [if_neg h, if_neg (by omega)]

theorem fillAux_getElem? (files : List MFile) :
    ∀ (order : List Nat) (acc : List (Option ProcRes)) (j : Nat),
      (order.foldl (fun a i => a.set i (procAt files i)) acc)[j]?
        = if j ∈ order ∧ j < acc.length then some (procAt files j) else acc[j]? := by
  intro order
  induction order with
  | nil => intro acc j; simp
  | cons i os ih =>
    intro acc j
    rw [List.foldl_cons, ih (acc.set i (procAt files i)) j, List.length_set]
    by_cases h1 : j ∈ os
    · by_cases h2 : j < acc.length
      · rw [if_pos ⟨h1, h2⟩, if_pos ⟨by simp [h1], h2⟩]
      · rw [if_neg (by tauto), if_neg (by tauto), set_getElem?, if_neg (by tauto)]
    · rw [if_neg (by tauto), set_getElem?]
      by_cases h3 : i = j ∧ j < acc.length
      · rw [if_pos h3, h3.1, if_pos ⟨by simp, h3.2⟩]
      · rw [if_neg h3]
        rw [if_neg ?hcond]
        case hcond =>
          rintro ⟨hj, hlen⟩
          rcases List.mem_cons.mp hj with rfl | hmem
          · exact h3 ⟨rfl, hlen⟩
          · exact h1 hmem

theorem fillBuffer_eq (files : List MFile) (order : List Nat)
    (h : order.Perm (List.range files.length)) :
    fillBuffer files order = files.map processFile := by
  apply List.ext_getElem?
  intro j
  rw [fillBuffer, fillAux_getElem?, List.length_replicate]
  have hmem : j ∈ order ↔ j < files.length := by rw [h.mem_iff, List.mem_range]
  by_cases hj : j < files.length
  · rw [if_pos ⟨hmem.mpr hj, hj⟩]
    rcases hfe : files[j]? with _ | f
    · rw [List.getElem?_eq_none_iff] at hfe
      omega
    · rw [List.getElem?_map, hfe]
      simp [procAt, List.get?_eq_getElem?, hfe]
  · rw [if_neg (by tauto)]
    rw [List.getElem?_replicate]
    rw [if_neg hj, List.getElem?_map, List.getElem?_eq_none (by omega)]
    rfl

theorem parallelMerge_invariant (files : List MFile) (order : List Nat)
    (h : order.Perm (List.range files.length)) :
    parallelMerge files order = parallelMerge files (List.range files.length) := by
  unfold parallelMerge
  rw [fillBuffer_eq files order h,
    fillBuffer_eq files (List.range files.length) (List.Perm.refl _)]

theorem processFile_path (f : MFile) (r : ProcRes) (h : processFile f = some r) :
    r.path = f.path := by
  rcases hc : f.content with _ | c
  · simp [processFile, hc] at h
  · simp only [processFile, hc, Option.map_some', Option.some.injEq] at h
    rw [← h]

theorem parPaths_eq (files : List MFile) :
    parPathsFrom (files.map processFile)
      = (files.filter (fun f => (processFile f).isSome)).map MFile.path := by
  induction files with
  | nil => rfl
  | cons f fs ih =>
    rcases hc : f.content with _ | c
    · have hp : processFile f = none := by simp [processFile, hc]
      simp [parPathsFrom, hp, List.filter] at *
      exact ih
    · have hp : processFile f = some ⟨f.path, c⟩ := by simp [processFile, hc]
      simp [parPathsFrom, hp, List.filter] at *
      exact ih

theorem sorted_filter_paths (files : List MFile)
    (h : List.Sorted pathLe (files.map MFile.path)) :
    List.Sorted pathLe ((files.filter (fun f => (processFile f).isSome)).map MFile.path) := by
  have hsub : List.Sublist
      ((files.filter (fun f => (processFile f).isSome)).map MFile.path)
      (files.map MFile.path) :=
    List.Sublist.map MFile.path (List.filter_sublist files)
  exact List.Pairwise.sublist hsub h

end Vibemerge


namespace Vibemerge

/-- Inside a string whose end delimiter is the single byte `x`, if `x`
never occurs in the rest of the input the loop copies everything and
leaves nothing over. -/
theorem stringLoop_single_notMem_fuel (x : Nat) :
    ∀ (n : Nat) (rest : List Nat), rest.length ≤ n → x ∉ rest →
      stringLoop [x] rest = (rest, []) := by
  intro n
  induction n with
  | zero =>
    intro rest h _
    have hr : rest = [] := List.eq_nil_of_length_eq_zero (by omega)
    subst hr
    rfl
  | succ n ih =>
    intro rest h hx
    match rest with
    | [] => rfl
    | [a] =>
      have hxa : ¬ x = a := fun he => hx (by simp [he])
      simp only [stringLoop]
      rw [if_pos (by simp), if_neg (by simp [List.isPrefixOf, hxa])]
    | a :: b :: rs2 =>
      have hxa : ¬ x = a := fun he => hx (by simp [he])
      simp only [stringLoop]
      rw [if_pos (by simp), if_neg (by simp [List.isPrefixOf, hxa])]
      by_cases h92 : a = 92
      · rw [if_pos h92]
        have hrec := ih rs2 (by simp only [List.length_cons] at h ⊢; omega)
          (fun hm => hx (List.mem_cons_of_mem a (List.mem_cons_of_mem b hm)))
        simp [hrec]
      · rw [if_neg h92]
        have hrec := ih (b :: rs2) (by simp only [List.length_cons] at h ⊢; omega)
          (fun hm => hx (List.mem_cons_of_mem a hm))
        simp [hrec]

theorem stringLoop_single_notMem (x : Nat) (rest : List Nat) (hx : x ∉ rest) :
    stringLoop [x] rest = (rest, []) :=
  stringLoop_single_notMem_fuel x rest.length rest le_rfl hx

/-! ## Claims -/

/-- Claim C1, amended: every byte inside a detected string-literal region is
copied unchanged into the output — the scanning loops emit exactly the bytes
they consume, as a verbatim prefix of the remaining input.  Comment
delimiters however are never consulted: two profiles with the same string
table produce identical output for every fuel and input, so the comment
tables of `LANGUAGE_CONFIGS` have no effect, and comment text is processed
as ordinary code (its whitespace is dropped, see the counterexample). -/
theorem C1_amended :
    (∀ cfg1 cfg2 : LangConfig, cfg1.strings = cfg2.strings →
      ∀ (fuel : Nat) (content : List Nat),
        compressFuel cfg1 fuel content = compressFuel cfg2 fuel content)
    ∧ (∀ e rest : List Nat, ∃ k, stringLoop e rest = (rest.take k, rest.drop k))
    ∧ (∀ rest : List Nat, ∃ k, lineLoop rest = (rest.take k, rest.drop k)) :=
  ⟨fun cfg1 cfg2 h => compressFuel_congr cfg1 cfg2 h,
   stringLoop_take_drop, lineLoop_take_drop⟩

/-- Claim C1, counterexample: the input `# a\n` is one comment region for
the `.py` profile, yet compression drops the whitespace inside it — the
engine never enters a comment state. -/
theorem C1_counterexample :
    compress_code [35, 32, 97, 10] ".py" = [35, 97]
    ∧ compress_code [35, 32, 97, 10] ".py" ≠ [35, 32, 97, 10] :=
  ⟨by decide, by decide⟩

/-- Claim C1, witness: the comment-independence conjunct applied to the
`.py` profile with its comment table emptied. -/
theorem C1_witness :
    compressFuel (getConfig ".py") 5 [35, 32, 97]
      = compressFuel ⟨(getConfig ".py").strings, []⟩ 5 [35, 32, 97] :=
  C1_amended.1 (getConfig ".py") ⟨(getConfig ".py").strings, []⟩ rfl 5 [35, 32, 97]

/-- Claim C2, amended: the string loop never raises — `compress_code`
always succeeds with linear fuel — and it copies bytes verbatim (a
take/drop split of its input).  When the end delimiter is a single byte
that never occurs, every remaining byte is copied verbatim; for longer
end delimiters the loop stops while `end_len` bytes no longer fit, and
the final bytes fall back to normal-state processing (whitespace may be
dropped there, see the counterexample). -/
theorem C2_amended :
    (∀ e rest : List Nat, ∃ k, stringLoop e rest = (rest.take k, rest.drop k))
    ∧ (∀ (x : Nat) (rest : List Nat), x ∉ rest → stringLoop [x] rest = (rest, []))
    ∧ (∀ (content : List Nat) (ext : String),
        (compressFuel (getConfig ext) (content.length + 1) content).isSome = true) :=
  ⟨stringLoop_take_drop, stringLoop_single_notMem,
   fun content ext =>
     compressFuel_isSome (getConfig ext) (getConfig_good ext) (content.length + 1) content
       (by omega)⟩

/-- Claim C2, counterexample: `\"\"\"a b` opens an unterminated
triple-quoted string; the final two bytes are reprocessed in normal state
and the space is dropped, so the remaining input is not copied verbatim. -/
theorem C2_counterexample :
    compress_code [34, 34, 34, 97, 32, 98] ".py" = [34, 34, 34, 97, 98]
    ∧ compress_code [34, 34, 34, 97, 32, 98] ".py" ≠ [34, 34, 34, 97, 32, 98] :=
  ⟨by decide, by decide⟩

/-- Claim C2, witness: an unterminated double-quoted string copies all
remaining bytes verbatim. -/
theorem C2_witness : stringLoop [34] [97, 32, 98] = ([97, 32, 98], []) :=
  C2_amended.2.1 34 [97, 32, 98] (by decide)

/-- Claim C3: the parallel result buffer is filled by input index, so the
drained output is byte-identical for every task completion order; the
paths whose blocks parallel mode emits are the admitted paths (with
failed reads dropped) in buffer order, hence sorted whenever the file
list is sorted; sequential mode emits headers in list order; and
`collect_files` returns its admitted files sorted by path. -/
theorem C3_theorem :
    (∀ (files : List MFile) (order : List Nat),
      order.Perm (List.range files.length) →
        parallelMerge files order = parallelMerge files (List.range files.length)
        ∧ parPathsFrom (fillBuffer files order)
            = (files.filter (fun f => (processFile f).isSome)).map MFile.path)
    ∧ (∀ files : List MFile, List.Sorted pathLe (files.map MFile.path) →
        List.Sorted pathLe (parPathsFrom (fillBuffer files (List.range files.length)))
        ∧ List.Sorted pathLe (seqPaths files))
    ∧ (∀ inputFiles dirCands : List Cand,
        List.Sorted pathLe (((collect_files inputFiles dirCands).1).map Cand.path)) := by
  refine ⟨?_, ?_, collect_files_sorted⟩
  · intro files order h
    refine ⟨parallelMerge_invariant files order h, ?_⟩
    rw [fillBuffer_eq files order h, parPaths_eq]
  · intro files h
    constructor
    · rw [fillBuffer_eq files _ (List.Perm.refl _), parPaths_eq]
      exact sorted_filter_paths files h
    · simpa [seqPaths] using h

/-- Claim C3, witness: a two-file merge drained after reversed completion
order, and a sorted two-file list. -/
theorem C3_witness :
    parallelMerge [⟨"a", some "x"⟩, ⟨"b", none⟩] [1, 0]
      = parallelMerge [⟨"a", some "x"⟩, ⟨"b", none⟩] (List.range 2)
    ∧ List.Sorted pathLe (seqPaths [⟨"a", some "x"⟩, ⟨"b", none⟩]) :=
  ⟨(C3_theorem.1 [⟨"a", some "x"⟩, ⟨"b", none⟩] [1, 0] (by decide)).1,
   (C3_theorem.2.1 [⟨"a", some "x"⟩, ⟨"b", none⟩] (by decide)).2⟩

/-- Claim C4, amended: the accumulated admitted byte size — the running
total, which in both collectors equals the sum of the admitted files'
sizes — never exceeds the 1 GiB budget; within one admission loop, the
first candidate that would exceed the budget stops that loop with
nothing further admitted.  A later phase (the directory haul after the
explicit-file pass, or the next directory group in the legacy collector)
may however still admit files — including files later in sorted order —
that fit the remaining budget, see the counterexample. -/
theorem C4_amended :
    (∀ inputFiles dirCands : List Cand,
      (collect_files inputFiles dirCands).2 ≤ MAX_TOTAL_SIZE
      ∧ (collect_files inputFiles dirCands).2
          = sumSizes (collect_files inputFiles dirCands).1)
    ∧ (∀ (c : Cand) (cs : List Cand) (total : Nat), c.ok = true →
        MAX_TOTAL_SIZE < total + c.size → walkCollect (c :: cs) total = ([], total))
    ∧ (∀ groups : List (List Cand),
        (collect_files_legacy groups).2 ≤ MAX_TOTAL_SIZE
        ∧ (collect_files_legacy groups).2 = sumSizes (collect_files_legacy groups).1) :=
  ⟨fun a b => ⟨collect_files_le a b, collect_files_sum a b⟩,
   walkCollect_stop,
   fun groups => ⟨collect_files_legacy_le groups, collect_files_legacy_sum groups⟩⟩

/-- Claim C4, counterexample: the explicit-file pass admits `a`
(1 GiB − 10 bytes) and stops at `b` (100 bytes), yet the directory file
`c` (5 bytes) — later than `b` in sorted order — is still admitted. -/
theorem C4_counterexample :
    (collect_files [⟨"a", MAX_TOTAL_SIZE - 10, true⟩, ⟨"b", 100, true⟩]
        [⟨"c", 5, true⟩]).1
      = [⟨"a", MAX_TOTAL_SIZE - 10, true⟩, ⟨"c", 5, true⟩]
    ∧ pathLe "b" "c" ∧ ¬ pathLe "c" "b" :=
  ⟨by decide, by decide, by decide⟩

/-- Claim C4, witness: the stop conjunct applied to a single oversized
candidate. -/
theorem C4_witness : walkCollect [⟨"z", 1073741825, true⟩] 0 = ([], 0) :=
  C4_amended.2.1 ⟨"z", 1073741825, true⟩ [] 0 rfl (by decide)

set_option maxRecDepth 100000 in
/-- Claim C5: evaluation of both writers on one admitted file with
trailing whitespace.  Sequential mode omits the delimiter line before
`FILE:` (it writes only the one after it) though it does strip trailing
whitespace; parallel mode writes the full three-line header but keeps the
trailing whitespace; so neither mode produces the block the spec
describes (dashes, FILE line, dashes, blank line, right-stripped
content). -/
theorem C5_theorem :
    seqMerge [⟨"a.py", some "x \n"⟩] = "FILE: a.py\n" ++ dashes80 ++ "\n\n" ++ "x"
    ∧ parallelMerge [⟨"a.py", some "x \n"⟩] [0]
        = dashes80 ++ "\nFILE: a.py\n" ++ dashes80 ++ "\n\n" ++ "x \n"
    ∧ seqMerge [⟨"a.py", some "x \n"⟩]
        ≠ dashes80 ++ "\nFILE: a.py\n" ++ dashes80 ++ "\n\n" ++ "x"
    ∧ parallelMerge [⟨"a.py", some "x \n"⟩] [0]
        ≠ dashes80 ++ "\nFILE: a.py\n" ++ dashes80 ++ "\n\n" ++ "x" :=
  ⟨by decide, by decide, by decide, by decide⟩

/-- Claim C6, amended: erasing tags from the instrumented output gives
`compress_code`; adjacent output bytes satisfy `escR` (a whitespace byte
outside a string-literal region is immediately preceded by the backslash
of its escape pair, so no two adjacent non-literal whitespace bytes
exist); the first output byte is never non-literal whitespace; and bytes
copied plainly in normal state are never whitespace.  The only whitespace
outside literals is therefore the second byte of a backslash escape pair
— not a comment terminator, which does not exist in the engine. -/
theorem C6_amended :
    ∀ (content : List Nat) (ext : String),
      (instrCompress content ext).map Prod.fst = compress_code content ext
      ∧ List.Chain' escR (instrCompress content ext)
      ∧ (∀ y ∈ (instrCompress content ext).head?, ¬ badWs y)
      ∧ (∀ p ∈ instrCompress content ext, p.2 = Tag.plain → isWs p.1 = false) := by
  intro content ext
  have hg := getConfig_good ext
  have her := instrFuel_erase (getConfig ext) (content.length + 1) content
  have hsome := instrFuel_isSome (getConfig ext) hg content
  rcases hi : instrFuel (getConfig ext) (content.length + 1) content with _ | l
  · rw [hi] at hsome
    simp at hsome
  · have hok := instrFuel_ok (getConfig ext) (content.length + 1) content l hi
    have hinstr : instrCompress content ext = l := by rw [instrCompress, hi]; rfl
    rw [hi] at her
    obtain ⟨hch, hhd, hpl⟩ := hok
    refine ⟨?_, by rw [hinstr]; exact hch, by rw [hinstr]; exact hhd,
      by rw [hinstr]; exact hpl⟩
    rw [hinstr, compress_code, ← her]
    rfl

/-- Claim C6, counterexample: the two-byte input backslash-space is kept
whole, so the output contains a whitespace byte outside any literal
region (tagged as an escape byte, not required by any delimiter). -/
theorem C6_counterexample :
    compress_code [92, 32] ".py" = [92, 32]
    ∧ instrCompress [92, 32] ".py" = [(92, Tag.esc), (32, Tag.esc)]
    ∧ isWs 32 = true :=
  ⟨by decide, by decide, rfl⟩

/-- Claim C6, witness: the head-byte conjunct applied to the escaped-space
input. -/
theorem C6_witness : ¬ badWs (92, Tag.esc) :=
  (C6_amended [92, 32] ".py").2.2.1 (92, Tag.esc) (Option.mem_def.mpr (by decide))

/-- Claim C7: in normal state a backslash with a following byte copies
both bytes and advances two positions (this check precedes delimiter
matching); inside a string, when the position holds a backslash that is
not itself the end delimiter and another byte follows, both bytes are
consumed without ending the string — so a backslash-escaped end delimiter
never terminates it. -/
theorem C7_theorem :
    (∀ (cfg : LangConfig) (fuel b : Nat) (rs : List Nat),
      compressFuel cfg (fuel + 1) (92 :: b :: rs)
        = (compressFuel cfg fuel rs).map (fun t => 92 :: b :: t))
    ∧ (∀ (e : List Nat) (d : Nat) (rs2 : List Nat),
        e.length ≤ (92 :: d :: rs2).length → e.isPrefixOf (92 :: d :: rs2) = false →
        stringLoop e (92 :: d :: rs2)
          = (92 :: d :: (stringLoop e rs2).1, (stringLoop e rs2).2)) := by
  constructor
  · exact fun cfg fuel b rs => compressFuel_esc cfg fuel b rs
  · intro e d rs2 h1 h2
    simp only [stringLoop]
    rw [if_pos h1, if_neg (by simp [h2])]
    simp

/-- Claim C7, witness: the escape step on `\ ` in normal state, and a
backslash-escaped quote inside a double-quoted string. -/
theorem C7_witness :
    compressFuel defaultConfig 1 [92, 32]
      = (compressFuel defaultConfig 0 []).map (fun t => 92 :: 32 :: t)
    ∧ stringLoop [34] [92, 34, 97]
        = (92 :: 34 :: (stringLoop [34] [97]).1, (stringLoop [34] [97]).2) :=
  ⟨C7_theorem.1 defaultConfig 0 32 [], C7_theorem.2 [34] 34 [97] (by decide) (by decide)⟩

/-- Claim C8, amended: `is_text` (v4) accepts exactly the readable files
that are non-empty, at most 10 MiB, and whose sampled window — the whole
file below 1 KiB, the first 8 KiB otherwise — has no null byte; failures
(`none`) are non-text.  The legacy `is_text_file` is the same except its
window is always at most the first 1 KiB, never 8 KiB. -/
theorem C8_amended :
    ∀ f : Option (List Nat),
      (is_text f = true ↔ ∃ d, f = some d ∧ d ≠ [] ∧ d.length ≤ MAX_FILE_SIZE
        ∧ (sampleWindow d).contains 0 = false)
      ∧ (is_text_file f = true ↔ ∃ d, f = some d ∧ d ≠ [] ∧ d.length ≤ MAX_FILE_SIZE
        ∧ (d.take (min d.length 1024)).contains 0 = false) := by
  intro f
  cases f with
  | none =>
    constructor
    · simp [is_text]
    · simp [is_text_file]
  | some d =>
    by_cases hc : d.length = 0 ∨ MAX_FILE_SIZE < d.length
    · constructor
      · simp only [is_text, if_pos hc]
        constructor
        · intro h; cases h
        · rintro ⟨d', hd, hne, hle, _⟩
          simp only [Option.some.injEq] at hd
          subst hd
          rcases hc with h0 | hM
          · exact absurd (List.eq_nil_of_length_eq_zero h0) hne
          · omega
      · simp only [is_text_file, if_pos hc]
        constructor
        · intro h; cases h
        · rintro ⟨d', hd, hne, hle, _⟩
          simp only [Option.some.injEq] at hd
          subst hd
          rcases hc with h0 | hM
          · exact absurd (List.eq_nil_of_length_eq_zero h0) hne
          · omega
    · push_neg at hc
      obtain ⟨h0, hM⟩ := hc
      have hne : d ≠ [] := fun hnil => h0 (by rw [hnil]; rfl)
      constructor
      · simp only [is_text, if_neg (by omega : ¬ (d.length = 0 ∨ MAX_FILE_SIZE < d.length))]
        constructor
        · intro h
          exact ⟨d, rfl, hne, by omega, by simpa using h⟩
        · rintro ⟨d', hd, _, _, hcont⟩
          simp only [Option.some.injEq] at hd
          subst hd
          simpa using hcont
      · simp only [is_text_file,
          if_neg (by omega : ¬ (d.length = 0 ∨ MAX_FILE_SIZE < d.length))]
        constructor
        · intro h
          exact ⟨d, rfl, hne, by omega, by simpa using h⟩
        · rintro ⟨d', hd, _, _, hcont⟩
          simp only [Option.some.injEq] at hd
          subst hd
          simpa using hcont

set_option maxRecDepth 100000 in
/-- Claim C8, counterexample: a 1025-byte file whose null byte sits just
past the first 1 KiB.  Its 8 KiB sample window does contain the null
byte, and the v4 classifier rejects it, but the legacy classifier reads
only `min(size, 1024)` bytes and accepts it as text. -/
theorem C8_counterexample :
    is_text_file (some (List.replicate 1024 65 ++ [0])) = true
    ∧ (sampleWindow (List.replicate 1024 65 ++ [0])).contains 0 = true
    ∧ is_text (some (List.replicate 1024 65 ++ [0])) = false :=
  ⟨by decide, by decide, by decide⟩

/-- Claim C9: with fuel `length + 1` — one unit per outer iteration, each
of which consumes at least one input byte — the scan of `compress_code`
always completes, for every input and every extension, known or not. -/
theorem C9_theorem :
    ∀ (content : List Nat) (ext : String),
      (compressFuel (getConfig ext) (content.length + 1) content).isSome = true :=
  fun content ext =>
    compressFuel_isSome (getConfig ext) (getConfig_good ext) (content.length + 1) content
      (by omega)

/-- Claim C10: compression never enlarges its input — every step emits at
most as many bytes as it consumes. -/
theorem C10_theorem :
    ∀ (content : List Nat) (ext : String),
      (compress_code content ext).length ≤ content.length := by
  intro content ext
  unfold compress_code
  rcases h : compressFuel (getConfig ext) (content.length + 1) content with _ | out
  · simp
  · simpa using compressFuel_length (getConfig ext) (content.length + 1) content out h

end Vibemerge
